import Mathlib

/-!
Verification of the acquisition-and-correlation engine of the PTS
night-session ranking application (`src/app.py`).

The Python code is shallowly embedded: every `def` below translates one
Python function (its source location is given in the doc comment).
Python strings are Lean `String`s manipulated through their character
lists, Python `None`-able values are `Option`s, Python floats are exact
rationals (`Rat`), and Python's Unicode-aware `str.isdigit` / `\d` /
`\s` are modelled by the ASCII classifiers `Char.isDigit` /
`Char.isWhitespace` (the feeds' codes, numbers and separators are
ASCII).  Raised exceptions are `Except.error` values.
-/

namespace PtsApp

/-- Python `str.strip()` on a character list: drop whitespace from both ends. -/
def stripChars (cs : List Char) : List Char :=
  ((cs.dropWhile Char.isWhitespace).reverse.dropWhile Char.isWhitespace).reverse

/-- Python `str.zfill(n)`: left-pad with `'0'` up to length `n`.
(The sign-aware branch of `zfill` is irrelevant here: it is only applied
to digit strings.) -/
def zfill (n : Nat) (s : String) : String :=
  if s.length < n then String.mk (List.replicate (n - s.length) '0' ++ s.data) else s

/-- `_safe_text` (src/app.py 13–24): `None` becomes `""`, surrounding
whitespace is stripped, and the literal text `"nan"` (case-insensitively)
becomes `""`.  The `pd.isna` branch only concerns non-string scalars and
cannot fire on the string columns modelled here. -/
def safeText (x : Option String) : String :=
  match x with
  | none => ""
  | some s =>
    let t := stripChars s.data
    if t.map Char.toLower = ['n', 'a', 'n'] then "" else String.mk t

/-- Value of a digit list read in base 10 (Python `int` on a digit string). -/
def digitsToNat (ds : List Char) : Nat :=
  ds.foldl (fun acc c => 10 * acc + (c.toNat - '0'.toNat)) 0

/-- `_to_int` (src/app.py 27–35): strip, empty means `None`, drop commas,
keep only digit characters, and read them as an integer (so the result is
never negative); no digit at all means `None`. -/
def toInt (text : Option String) : Option Nat :=
  match text with
  | none => none
  | some s =>
    let t := stripChars s.data
    if t = [] then none
    else
      let t2 := t.filter fun c => c != ','       -- `t.replace(",", "")`
      let digits := t2.filter Char.isDigit
      if digits = [] then none else some (digitsToNat digits)

/-- The optional sign `[-+]?`: whether a leading `'-'` was read, and the
remaining characters. -/
def parseSign : List Char → Bool × List Char
  | '-' :: rest => (true, rest)
  | '+' :: rest => (false, rest)
  | cs => (false, cs)

/-- Anchored match of the regex fragment `[-+]?\d+(?:\.\d+)?` at the head of
`cs`: on success, the sign, the (greedy) integer digits, the (greedy)
fraction digits (empty when the optional group matches nothing) and the
remaining characters. -/
def matchNumAt (cs : List Char) : Option (Bool × List Char × List Char × List Char) :=
  let sign := (parseSign cs).1
  let cs1 := (parseSign cs).2
  let ip := cs1.takeWhile Char.isDigit
  let cs2 := cs1.dropWhile Char.isDigit
  if ip = [] then none
  else
    match cs2 with
    | '.' :: cs3 =>
      let fp := cs3.takeWhile Char.isDigit
      if fp = [] then some (sign, ip, [], cs2)
      else some (sign, ip, fp, cs3.dropWhile Char.isDigit)
    | _ => some (sign, ip, [], cs2)

/-- Anchored match of `[-+]?\d+(?:\.\d+)?\s*%` at the head of `cs`.
If `\s*%` fails right after the greedy fraction it also fails after any
backtracked alternative (the next character there is a digit or `'.'`,
never whitespace or `'%'`), so no backtracking is modelled. -/
def matchPctAt (cs : List Char) : Option (Bool × List Char × List Char) :=
  match matchNumAt cs with
  | none => none
  | some (sign, ip, fp, rest) =>
    match rest.dropWhile Char.isWhitespace with
    | '%' :: _ => some (sign, ip, fp)
    | _ => none

/-- Leftmost match: try the anchored matcher at every position, left to
right (the semantics of `re.findall(...)[0]` / `re.search`). -/
def findIn (f : List Char → Option β) : List Char → Option β
  | [] => none
  | c :: rest =>
    match f (c :: rest) with
    | some r => some r
    | none => findIn f rest

/-- Numeric value of a matched `[-+]?\d+(?:\.\d+)?` group, as an exact
rational (Python's `float(x)` on the matched text). -/
def numVal (sign : Bool) (ip fp : List Char) : Rat :=
  let v : Rat := (digitsToNat ip : Rat) + (digitsToNat fp : Rat) / (10 : Rat) ^ fp.length
  if sign then -v else v

/-- `_to_float_pct` (src/app.py 38–55): replace the full-width `％` by `%`,
take the first `[-+]?\d+(?:\.\d+)?\s*%` match and read its number; with no
such match fall back to the first bare `[-+]?\d+(?:\.\d+)?` match; with no
number at all, `None`.  (The `float(...)` conversions cannot fail on a
matched group, so the `try/except` arms collapse.) -/
def toFloatPct (pctText : Option String) : Option Rat :=
  match pctText with
  | none => none
  | some s0 =>
    let cs := s0.data.map fun c => if c == '％' then '%' else c
    match findIn matchPctAt cs with
    | some (sign, ip, fp) => some (numVal sign ip fp)
    | none =>
      match findIn matchNumAt cs with
      | some (sign, ip, fp, _) => some (numVal sign ip fp)
      | none => none

/-- Python `str.isdigit()`: nonempty and all digits. -/
def pyIsdigitChars (cs : List Char) : Bool := !cs.isEmpty && cs.all Char.isDigit

/-- `_normalize_company_code` (src/app.py 60–65): strip; a five-character
string ending in `'0'` whose first four characters are digits loses its
last character; otherwise keep only digit characters and at most the
first four of them. -/
def normalizeCompanyCode (s0 : Option String) : String :=
  let s := stripChars (s0.getD "").data
  -- `len(s) == 5 and s.endswith("0") and s[:4].isdigit()`
  if s.length == 5 && s.getLast? == some '0' && pyIsdigitChars (s.take 4) then
    String.mk (s.take 4)
  else
    let digits := s.filter Char.isDigit
    -- `digits[:4] if len(digits) >= 4 else digits`
    if 4 ≤ digits.length then String.mk (digits.take 4) else String.mk digits

/-! ### Calendar dates (`datetime.date`) -/

/-- A Python `datetime.date` value. -/
structure PyDate where
  year : Nat
  month : Nat
  day : Nat
deriving DecidableEq, Repr

/-- Python's Gregorian leap-year rule. -/
def isLeapYear (y : Nat) : Bool := y % 4 == 0 && (y % 100 != 0 || y % 400 == 0)

def daysInMonth (y m : Nat) : Nat :=
  if m = 2 then (if isLeapYear y then 29 else 28)
  else if m = 4 ∨ m = 6 ∨ m = 9 ∨ m = 11 then 30
  else 31

/-- The constructor `datetime.date(y, m, d)`: out-of-range arguments raise,
modelled as `none` (the callers catch the exception and return `None`). -/
def mkDate (y m d : Nat) : Option PyDate :=
  if 1 ≤ y ∧ y ≤ 9999 ∧ 1 ≤ m ∧ m ≤ 12 ∧ 1 ≤ d ∧ d ≤ daysInMonth y m then
    some ⟨y, m, d⟩
  else none

/-- Python's `date` comparison: lexicographic on (year, month, day). -/
def dateLe (a b : PyDate) : Bool :=
  decide (a.year < b.year ∨ (a.year = b.year ∧
    (a.month < b.month ∨ (a.month = b.month ∧ a.day ≤ b.day))))

/-- Anchored match of the date regex `(\d{4})[-X](\d{2})[-X](\d{2})` where
`X` stands for a forward slash, with the three groups read as integers. -/
def matchDashDateAt (cs : List Char) : Option (Nat × Nat × Nat) :=
  match cs with
  | y1 :: y2 :: y3 :: y4 :: s1 :: m1 :: m2 :: s2 :: d1 :: d2 :: _ =>
    if y1.isDigit && y2.isDigit && y3.isDigit && y4.isDigit
        && (s1 == '-' || s1 == '/') && m1.isDigit && m2.isDigit
        && (s2 == '-' || s2 == '/') && d1.isDigit && d2.isDigit then
      some (digitsToNat [y1, y2, y3, y4], digitsToNat [m1, m2], digitsToNat [d1, d2])
    else none
  | _ => none

/-- Anchored match of `(\d{4})(\d{2})(\d{2})`: eight consecutive digits. -/
def matchCompactDateAt (cs : List Char) : Option (Nat × Nat × Nat) :=
  match cs with
  | a :: b :: c :: d :: e :: f :: g :: h :: _ =>
    if a.isDigit && b.isDigit && c.isDigit && d.isDigit
        && e.isDigit && f.isDigit && g.isDigit && h.isDigit then
      some (digitsToNat [a, b, c, d], digitsToNat [e, f], digitsToNat [g, h])
    else none
  | _ => none

/-- `_extract_date_from_pubdate` (src/app.py 68–87): first `YYYY-MM-DD` /
`YYYY/MM/DD` pattern anywhere in the text, else the first 8-digit
`YYYYMMDD` pattern, read as a date; an invalid date or no match is `None`. -/
def extractDateFromPubdate (pubdate : String) : Option PyDate :=
  let s := safeText (some pubdate)
  if s = "" then none
  else
    match findIn matchDashDateAt s.data with
    | some (y, m, d) => mkDate y m d
    | none =>
      match findIn matchCompactDateAt s.data with
      | some (y, m, d) => mkDate y m d
      | none => none

/-! ### Disclosure feed loading (`attach_disclosures`, src/app.py 90–243) -/

/-- One JSON item of the disclosure feed: `it.get(...)` yields `none` for an
absent field. -/
structure RawItem where
  company_code : Option String
  title : Option String
  document_url : Option String
  pubdate : Option String
deriving DecidableEq, Repr

/-- One row of the frame built by `_fetch` (src/app.py 107–128). -/
structure DiscRow where
  code : String
  source_tag : String
  title : String
  document_url : String
  pubdate : String
deriving DecidableEq, Repr

/-- One iteration of the row-building loop of `_fetch` (src/app.py 108–124):
the `title`, `document_url` and `pubdate` fields default to `""` when
absent, the code is normalized then zero-padded to four characters. -/
def fetchRow (it : RawItem) : DiscRow :=
  { code := zfill 4 (safeText (some (normalizeCompanyCode it.company_code)))
    source_tag := "recent"
    title := safeText (some (it.title.getD ""))
    document_url := safeText (some (it.document_url.getD ""))
    pubdate := safeText (some (it.pubdate.getD "")) }

/-- The row-building loop of `_fetch` (src/app.py 107–128). -/
def fetchRows (items : List RawItem) : List DiscRow :=
  items.map fetchRow

/-- A disclosure row with its parsed publication date (`pub_date_only`). -/
structure DiscRow2 where
  code : String
  source_tag : String
  title : String
  document_url : String
  pubdate : String
  pub_date_only : Option PyDate
deriving DecidableEq, Repr

/-- The deduplication key of `drop_duplicates(subset=["code", "document_url"])`. -/
def dedupKey (r : DiscRow2) : String × String := (r.code, r.document_url)

/-- `drop_duplicates(..., keep="first")`: keep a row iff its key was not seen
on an earlier row. -/
def dropDuplicatesBy (seen : List (String × String)) : List DiscRow2 → List DiscRow2
  | [] => []
  | r :: rest =>
    if dedupKey r ∈ seen then dropDuplicatesBy seen rest
    else r :: dropDuplicatesBy (dedupKey r :: seen) rest

/-- The column re-normalization of src/app.py 135–138: re-apply `_safe_text`
(and `zfill` for the code) to every column. -/
def clean1 (r : DiscRow) : DiscRow :=
  { code := zfill 4 (safeText (some r.code))
    source_tag := r.source_tag
    title := safeText (some r.title)
    document_url := safeText (some r.document_url)
    pubdate := safeText (some r.pubdate) }

/-- The row filter of src/app.py 140: keep rows with a nonempty code and a
nonempty document URL. -/
def keepRow (r : DiscRow) : Bool := r.code != "" && r.document_url != ""

/-- The `pub_date_only` column of src/app.py 141. -/
def addDate (r : DiscRow) : DiscRow2 :=
  { code := r.code, source_tag := r.source_tag, title := r.title
    document_url := r.document_url, pubdate := r.pubdate
    pub_date_only := extractDateFromPubdate r.pubdate }

/-- The cleaning steps of src/app.py 135–141 before deduplication. -/
def cleanPre (td : List DiscRow) : List DiscRow2 :=
  ((td.map clean1).filter keepRow).map addDate

/-- The whole cleaning block of `attach_disclosures` (src/app.py 134–143);
the `if len(td) > 0` guard leaves an empty frame untouched. -/
def cleanRows (td : List DiscRow) : List DiscRow2 :=
  if td = [] then [] else dropDuplicatesBy [] (cleanPre td)

/-- The disclosure loading pipeline: `_fetch`'s row building followed by the
cleaning block (src/app.py 94–143). -/
def loadDisclosures (items : List RawItem) : List DiscRow2 :=
  cleanRows (fetchRows items)

/-! ### Recency tagging (src/app.py 145–168) -/

/-- `sorted(set(dates), reverse=True)` over the defined publication dates
(src/app.py 148–150): the distinct dates, newest first.  (The descending
sort of a duplicate-free list is unique, so the unordered Python `set` is
modelled by `dedup`.) -/
def uniqueDatesDesc (td : List DiscRow2) : List PyDate :=
  ((td.filterMap fun r => r.pub_date_only).dedup).mergeSort fun a b => dateLe b a

/-- `max_date` (src/app.py 151–152): the newest distinct date, if any. -/
def maxDateOf (td : List DiscRow2) : Option PyDate := (uniqueDatesDesc td)[0]?

/-- `prev_date` (src/app.py 153–154): the second-newest distinct date, if any. -/
def prevDateOf (td : List DiscRow2) : Option PyDate := (uniqueDatesDesc td)[1]?

/-- `_day_tag` (src/app.py 156–163). -/
def dayTag (maxD prevD : Option PyDate) (d : Option PyDate) : String :=
  match d with
  | none => ""
  | some d =>
    if maxD = some d then "当日"
    else if prevD = some d then "前日"
    else ""

/-- A disclosure row with its `day_tag` column (src/app.py 165–168). -/
structure DiscRow3 where
  code : String
  source_tag : String
  title : String
  document_url : String
  pubdate : String
  pub_date_only : Option PyDate
  day_tag : String
deriving DecidableEq, Repr

/-- `td["day_tag"] = td["pub_date_only"].apply(_day_tag)` (src/app.py 165–168). -/
def tagRows (td : List DiscRow2) : List DiscRow3 :=
  let maxD := maxDateOf td
  let prevD := prevDateOf td
  td.map fun r =>
    { code := r.code, source_tag := r.source_tag, title := r.title
      document_url := r.document_url, pubdate := r.pubdate
      pub_date_only := r.pub_date_only
      day_tag := dayTag maxD prevD r.pub_date_only }

/-! ### Ranking, grouping and correlation (src/app.py 188–243) -/

/-- `_rank` (src/app.py 188–193). -/
def rank (tag : String) : Nat :=
  if tag = "当日" then 0 else if tag = "前日" then 1 else 9

/-- `_decorate_title` (src/app.py 196–206). -/
def decorateTitle (day_tag title : String) : String :=
  let title := safeText (some title)
  let pfx := if day_tag = "当日" then "🟦 " else if day_tag = "前日" then "🟨 " else ""
  if title = "" then pfx ++ "(タイトルなし)" else pfx ++ title

/-- The lexicographic (code, rank) comparison of
`td2.sort_values(by=["code", "rank"], ascending=True)` (src/app.py 212–213);
sorting by several columns in pandas is a stable lexicographic sort,
modelled with the stable `List.mergeSort`. -/
def lexLe (a b : DiscRow3) : Bool :=
  decide (a.code < b.code) || (a.code == b.code && decide (rank a.day_tag ≤ rank b.day_tag))

/-- One grouped entry `(day_tag, title_text, url)` (src/app.py 216–219). -/
def mkItem (r : DiscRow3) : String × String × String :=
  let tag := safeText (some r.day_tag)
  (tag, decorateTitle tag r.title, safeText (some r.document_url))

/-- The grouping key `_safe_text(row.get("code", "")).zfill(4)` (src/app.py 216). -/
def groupKey (r : DiscRow3) : String := zfill 4 (safeText (some r.code))

/-- The dictionary `by_code` (src/app.py 209–220) is only ever read through
`by_code.get(c, [])`, which yields exactly the rows of the sorted frame whose
grouping key is `c`, in sorted order; that observation is modelled directly. -/
def byCode (td : List DiscRow3) (c : String) : List (String × String × String) :=
  ((td.mergeSort lexLe).filter fun r => groupKey r == c).map mkItem

/-- One row of the equity ranking, as built by `parse_pts_page`
(src/app.py 292–302). -/
structure EquityRow where
  code : String
  name : String
  pct : Option Rat
  volume : Option Nat
  close_price : Option Nat
  pts_price : Option Nat
  pct_raw : String
deriving DecidableEq, Repr

/-- One output record of `attach_disclosures` (src/app.py 222–243):
`disclosureCount` is the `開示件数` column and `topDisclosures` the
`_開示上位5` column ((title, url) pairs); the `開示タイトルi`/`PDFリンクi`
display columns are its first three entries and are not modelled
separately. -/
structure CorrRecord where
  code : String
  name : String
  pct : Option Rat
  volume : Option Nat
  close_price : Option Nat
  pts_price : Option Nat
  pct_raw : String
  disclosureCount : Nat
  topDisclosures : List (String × String)
deriving DecidableEq, Repr

/-- One output record of the correlation step (src/app.py 222–243): the
equity's code is re-stripped and zero-padded (`astype(str).str.strip().str.zfill(4)`),
`disclosureCount` is the total number of grouped matches (uncapped) and
`topDisclosures` the first five grouped items. -/
def attachOne (tagged : List DiscRow3) (e : EquityRow) : CorrRecord :=
  let c := zfill 4 (String.mk (stripChars e.code.data))
  let items := byCode tagged c
  { code := c, name := e.name, pct := e.pct, volume := e.volume
    close_price := e.close_price, pts_price := e.pts_price, pct_raw := e.pct_raw
    disclosureCount := items.length
    topDisclosures := (items.take 5).map fun it => (it.2.1, it.2.2) }

/-- The correlation step of `attach_disclosures` (src/app.py 222–243): one
output record per input equity row, in order. -/
def attachDisclosures (tagged : List DiscRow3) (dfIn : List EquityRow) : List CorrRecord :=
  dfIn.map (attachOne tagged)

/-! ### Pagination crawler (src/app.py 307–342) -/

/-- `df["pct"].max(skipna=True)`: the greatest defined percentage on a page,
`none` when no row has one. -/
def maxPct (df : List EquityRow) : Option Rat := (df.filterMap fun r => r.pct).max?

/-- The page loop of `crawl_until_below_threshold` (src/app.py 311–336),
starting at `page` with `fuel` pages still allowed and `last` the
`last_page` value so far: collect each visited page's frame, stop before
appending an empty page, and stop after appending a page whose maximum
percentage is undefined or strictly below the threshold. -/
def crawlGo (pctThreshold : Rat) (pages : Nat → List EquityRow) :
    Nat → Nat → Nat → List (List EquityRow) × Nat
  | _, 0, last => ([], last)
  | page, fuel + 1, _ =>
    let df := pages page
    if df = [] then ([], page)
    else
      match maxPct df with
      | none => ([df], page)
      | some mx =>
        if mx < pctThreshold then ([df], page)
        else
          let r := crawlGo pctThreshold pages (page + 1) fuel page
          (df :: r.1, r.2)

/-- `crawl_until_below_threshold` (src/app.py 307–342): `pages p` stands for
`parse_pts_page(fetch_pts_page(p))`; the final `pd.concat` (or the empty
frame when nothing was collected) is the flattening of the collected
frames. -/
def crawl (pctThreshold : Rat) (maxPages : Nat) (pages : Nat → List EquityRow) :
    List EquityRow × Nat :=
  let r := crawlGo pctThreshold pages 1 maxPages 0
  (r.1.flatten, r.2)

/-! ### The button handler (src/app.py 361–383) -/

/-- The button handler up to the percentage/volume filter
(src/app.py 361–381): validate the three text inputs (a raised `ValueError`
is the `.error` case), crawl, then keep the rows with both `pct` and
`volume` defined and meeting their floors.  `_to_int` never returns a
negative value, so Python's `max_pages_val <= 0` is `= 0` here.  The
subsequent disclosure join is `attachDisclosures`. -/
def runQuery (pctMin volMin maxPagesStr : String) (pages : Nat → List EquityRow) :
    Except String (List EquityRow × Nat) :=
  match toFloatPct (some pctMin) with
  | none => .error ("上昇率(%)の下限が解釈できません: " ++ pctMin)
  | some p =>
    match toInt (some volMin) with
    | none => .error ("出来高の下限が解釈できません: " ++ volMin)
    | some v =>
      match toInt (some maxPagesStr) with
      | none => .error ("最大ページ数が解釈できません: " ++ maxPagesStr)
      | some mp =>
        if mp = 0 then .error ("最大ページ数が解釈できません: " ++ maxPagesStr)
        else
          let r := crawl p mp pages
          let df2 := r.1.filter fun row =>
            match row.pct, row.volume with
            | some pc, some vol => decide (p ≤ pc) && decide (v ≤ vol)
            | _, _ => false
          .ok (df2, r.2)

/-! ## Concrete fixtures used by the spec's worked examples -/

/-- An equity row carrying a given change percentage. -/
def rowP (x : Rat) : EquityRow :=
  { code := "7203", name := "トヨタ", pct := some x, volume := some 1000
    close_price := some 100, pts_price := some 110, pct_raw := "" }

/-- Pages whose maxima are [20, 15, 9, 3] (the spec's crawler example). -/
def pagesA (n : Nat) : List EquityRow :=
  match n with
  | 1 => [rowP 20] | 2 => [rowP 15] | 3 => [rowP 9] | 4 => [rowP 3] | _ => []

/-- Like `pagesA` but with a different page 4: the crawl may not look at it. -/
def pagesB (n : Nat) : List EquityRow :=
  match n with
  | 1 => [rowP 20] | 2 => [rowP 15] | 3 => [rowP 9] | 4 => [rowP 100, rowP 50] | _ => []

/-- Page 1 nonempty, page 2 empty (the spec's empty-page example). -/
def pagesC (n : Nat) : List EquityRow :=
  match n with
  | 1 => [rowP 20] | _ => []

/-- A tagged disclosure row for one code with a given day tag and URL. -/
def tagRow (tag u : String) : DiscRow3 :=
  { code := "1234", source_tag := "recent", title := "T" ++ u, document_url := u
    pubdate := "", pub_date_only := none, day_tag := tag }

/-- Disclosures of one code arriving tagged [none, today, yesterday, today]
(the spec's correlation-ordering example). -/
def tdEx5 : List DiscRow3 :=
  [tagRow "" "u1", tagRow "当日" "u2", tagRow "前日" "u3", tagRow "当日" "u4"]

/-- A loaded disclosure row dated `d` (the spec's recency example). -/
def datedRow (u : String) (d : Option PyDate) : DiscRow2 :=
  { code := "1234", source_tag := "recent", title := "T" ++ u, document_url := u
    pubdate := "", pub_date_only := d }

/-- Rows observing the dates {2024-05-10, 2024-05-09, 2024-05-08}. -/
def tdEx4 : List DiscRow2 :=
  [datedRow "u1" (some ⟨2024, 5, 10⟩), datedRow "u2" (some ⟨2024, 5, 9⟩),
   datedRow "u3" (some ⟨2024, 5, 8⟩), datedRow "u4" none]

/-! ## Helper lemmas -/

theorem mem_of_mem_stripChars {c : Char} {cs : List Char} (h : c ∈ stripChars cs) : c ∈ cs := by
  unfold stripChars at h
  rw [List.mem_reverse] at h
  have h1 := (List.dropWhile_sublist _).mem h
  rw [List.mem_reverse] at h1
  exact (List.dropWhile_sublist _).mem h1

theorem pairwise_of_forall_mem {α : Type} {R : α → α → Prop} {l : List α}
    (h : ∀ a ∈ l, ∀ b ∈ l, R a b) : l.Pairwise R := by
  induction l with
  | nil => exact List.Pairwise.nil
  | cons a t ih =>
    refine List.Pairwise.cons (fun b hb => h a (List.mem_cons_self a t) b (List.mem_cons_of_mem _ hb)) ?_
    exact ih fun x hx y hy => h x (List.mem_cons_of_mem _ hx) y (List.mem_cons_of_mem _ hy)

/-- Stability of `mergeSort`: a filter whose survivors are pairwise ties of
the comparison commutes with the sort. -/
theorem filter_mergeSort_of_ties {α : Type} {le : α → α → Bool}
    (htrans : ∀ a b c, le a b = true → le b c = true → le a c = true)
    (htotal : ∀ a b, (le a b || le b a) = true)
    (l : List α) (p : α → Bool)
    (hp : ∀ a ∈ l, ∀ b ∈ l, p a = true → p b = true → le a b = true) :
    (l.mergeSort le).filter p = l.filter p := by
  have hsub : List.Sublist (l.filter p) (l.mergeSort le) := by
    refine List.sublist_mergeSort htrans htotal ?_ (List.filter_sublist l)
    refine pairwise_of_forall_mem fun a ha b hb => ?_
    exact hp a ((List.filter_sublist l).mem ha) b ((List.filter_sublist l).mem hb)
      (List.of_mem_filter ha) (List.of_mem_filter hb)
  have hperm : List.Perm ((l.mergeSort le).filter p) (l.filter p) :=
    (List.mergeSort_perm l le).filter p
  have hsub2 : List.Sublist (l.filter p) ((l.mergeSort le).filter p) := by
    have h2 := hsub.filter p
    rwa [List.filter_eq_self.mpr fun a ha => List.of_mem_filter ha] at h2
  exact (hsub2.eq_of_length hperm.length_eq.symm).symm

/-! ## C7 — identifier normalization -/

theorem normalizeCompanyCode_eq (s0 : Option String) :
    normalizeCompanyCode s0 =
      if (stripChars (s0.getD "").data).length = 5 ∧
          (stripChars (s0.getD "").data).getLast? = some '0' ∧
          (∀ c ∈ (stripChars (s0.getD "").data).take 4, c.isDigit = true)
      then String.mk ((stripChars (s0.getD "").data).take 4)
      else String.mk (((stripChars (s0.getD "").data).filter Char.isDigit).take 4) := by
  unfold normalizeCompanyCode
  by_cases h : (stripChars (s0.getD "").data).length = 5 ∧
      (stripChars (s0.getD "").data).getLast? = some '0' ∧
      (∀ c ∈ (stripChars (s0.getD "").data).take 4, c.isDigit = true)
  · obtain ⟨h1, h2, h3⟩ := h
    have hne : ((stripChars (s0.getD "").data).take 4).isEmpty = false := by
      rw [List.isEmpty_eq_false_iff_exists_mem]
      have : (stripChars (s0.getD "").data).take 4 ≠ [] := by
        rw [Ne, List.take_eq_nil_iff]
        rintro (h4 | h4)
        · exact absurd h4 (by norm_num)
        · rw [h4] at h1; simp at h1
      exact List.exists_mem_of_ne_nil _ this
    have hb : ((stripChars (s0.getD "").data).length == 5 &&
        (stripChars (s0.getD "").data).getLast? == some '0' &&
        pyIsdigitChars ((stripChars (s0.getD "").data).take 4)) = true := by
      simp only [pyIsdigitChars, h1, h2, hne, List.all_eq_true, beq_self_eq_true,
        Bool.not_false, Bool.true_and, Bool.and_eq_true, decide_eq_true_eq]
      exact h3
    rw [if_pos hb, if_pos ⟨h1, h2, h3⟩]
  · have hb : ((stripChars (s0.getD "").data).length == 5 &&
        (stripChars (s0.getD "").data).getLast? == some '0' &&
        pyIsdigitChars ((stripChars (s0.getD "").data).take 4)) = false := by
      rw [Bool.eq_false_iff]
      intro hc
      apply h
      simp only [Bool.and_eq_true, beq_iff_eq, pyIsdigitChars, List.all_eq_true] at hc
      exact ⟨hc.1.1, hc.1.2, hc.2.2⟩
    rw [if_neg (by simp [hb]), if_neg h]
    by_cases h4 : 4 ≤ ((stripChars (s0.getD "").data).filter Char.isDigit).length
    · rw [if_pos h4]
    · rw [if_neg h4, List.take_of_length_le (by omega)]

/-- C7: the identifier normalizer strips surrounding whitespace; if the
trimmed string has length 5, ends in `'0'` and its first 4 characters are
all digits it returns those first 4 characters, otherwise it returns the
first 4 digit characters left-to-right (or fewer if fewer exist), never
raising; in particular `normalize "72030" = "7203"`,
`normalize "  1301 " = "1301"`, `normalize "abc12" = "12"` and
`normalize "" = ""`. -/
theorem normalizeCompanyCode_spec :
    (∀ s : String,
      normalizeCompanyCode (some s) =
        if (stripChars s.data).length = 5 ∧ (stripChars s.data).getLast? = some '0' ∧
            (∀ c ∈ (stripChars s.data).take 4, c.isDigit = true)
        then String.mk ((stripChars s.data).take 4)
        else String.mk (((stripChars s.data).filter Char.isDigit).take 4)) ∧
    normalizeCompanyCode (some "72030") = "7203" ∧
    normalizeCompanyCode (some "  1301 ") = "1301" ∧
    normalizeCompanyCode (some "abc12") = "12" ∧
    normalizeCompanyCode (some "") = "" := by
  refine ⟨fun s => ?_, by decide, by decide, by decide, by decide⟩
  have h := normalizeCompanyCode_eq (some s)
  simpa only [Option.getD_some] using h

/-! ## C8 — percentage parsing -/

theorem parseSign_snd_sublist (cs : List Char) : List.Sublist (parseSign cs).2 cs := by
  unfold parseSign
  split
  · exact List.sublist_cons_self _ _
  · exact List.sublist_cons_self _ _
  · exact List.Sublist.refl _

theorem matchNumAt_rest_sublist {cs : List Char} {sg : Bool} {ip fp rest : List Char}
    (h : matchNumAt cs = some (sg, ip, fp, rest)) : List.Sublist rest cs := by
  unfold matchNumAt at h
  have hsub1 : List.Sublist ((parseSign cs).2.dropWhile Char.isDigit) cs :=
    (List.dropWhile_sublist _).trans (parseSign_snd_sublist cs)
  by_cases hip : ((parseSign cs).2.takeWhile Char.isDigit) = []
  · rw [if_pos hip] at h
    exact absurd h (by simp)
  · rw [if_neg hip] at h
    split at h
    next cs3 heq =>
      by_cases hfp : cs3.takeWhile Char.isDigit = []
      · rw [if_pos hfp] at h
        simp only [Option.some.injEq, Prod.mk.injEq] at h
        rw [← h.2.2.2]
        exact hsub1
      · rw [if_neg hfp] at h
        simp only [Option.some.injEq, Prod.mk.injEq] at h
        rw [← h.2.2.2]
        refine List.Sublist.trans ?_ hsub1
        rw [heq]
        exact (List.dropWhile_sublist _).trans (List.sublist_cons_self _ _)
    next heq2 =>
      simp only [Option.some.injEq, Prod.mk.injEq] at h
      rw [← h.2.2.2]
      exact hsub1

theorem matchNumAt_digit {cs : List Char} {sg : Bool} {ip fp rest : List Char}
    (h : matchNumAt cs = some (sg, ip, fp, rest)) : ∃ c ∈ cs, c.isDigit = true := by
  unfold matchNumAt at h
  by_cases hip : ((parseSign cs).2.takeWhile Char.isDigit) = []
  · rw [if_pos hip] at h
    exact absurd h (by simp)
  · obtain ⟨c, hc⟩ := List.exists_mem_of_ne_nil _ hip
    refine ⟨c, ?_, List.mem_takeWhile_imp hc⟩
    exact (parseSign_snd_sublist cs).mem ((List.takeWhile_sublist _).mem hc)

theorem matchPctAt_num {cs : List Char} {r : Bool × List Char × List Char}
    (h : matchPctAt cs = some r) :
    ∃ sg ip fp rest, matchNumAt cs = some (sg, ip, fp, rest) := by
  unfold matchPctAt at h
  split at h
  · exact absurd h (by simp)
  next sg ip fp rest heq => exact ⟨sg, ip, fp, rest, heq⟩

theorem matchPctAt_mem {cs : List Char} {r : Bool × List Char × List Char}
    (h : matchPctAt cs = some r) : '%' ∈ cs := by
  unfold matchPctAt at h
  split at h
  · exact absurd h (by simp)
  next sg ip fp rest heq =>
    split at h
    next heq2 =>
      have h1 : '%' ∈ rest.dropWhile Char.isWhitespace := by rw [heq2]; exact List.mem_cons_self _ _
      exact (matchNumAt_rest_sublist heq).mem ((List.dropWhile_sublist _).mem h1)
    · exact absurd h (by simp)

theorem findIn_matchPctAt_none {cs : List Char} (h : '%' ∉ cs) :
    findIn matchPctAt cs = none := by
  induction cs with
  | nil => rfl
  | cons c rest ih =>
    cases hm : matchPctAt (c :: rest) with
    | some r => exact absurd (matchPctAt_mem hm) h
    | none =>
      simp only [findIn, hm]
      exact ih fun hmem => h (List.mem_cons_of_mem _ hmem)

theorem findIn_matchNumAt_none {cs : List Char} (h : ∀ c ∈ cs, c.isDigit = false) :
    findIn matchNumAt cs = none := by
  induction cs with
  | nil => rfl
  | cons c rest ih =>
    cases hm : matchNumAt (c :: rest) with
    | some r =>
      obtain ⟨sg, ip, fp, rest'⟩ := r
      obtain ⟨d, hd, hdig⟩ := matchNumAt_digit hm
      rw [h d hd] at hdig
      exact absurd hdig (by simp)
    | none =>
      simp only [findIn, hm]
      exact ih fun x hx => h x (List.mem_cons_of_mem _ hx)

theorem findIn_matchPctAt_none_of_no_digits {cs : List Char}
    (h : ∀ c ∈ cs, c.isDigit = false) : findIn matchPctAt cs = none := by
  induction cs with
  | nil => rfl
  | cons c rest ih =>
    cases hm : matchPctAt (c :: rest) with
    | some r =>
      obtain ⟨sg, ip, fp, rest', heq⟩ := matchPctAt_num hm
      obtain ⟨d, hd, hdig⟩ := matchNumAt_digit heq
      rw [h d hd] at hdig
      exact absurd hdig (by simp)
    | none =>
      simp only [findIn, hm]
      exact ih fun x hx => h x (List.mem_cons_of_mem _ hx)

theorem map_pct_id {cs : List Char} (h : '％' ∉ cs) :
    (cs.map fun c => if c == '％' then '%' else c) = cs := by
  have h2 : ∀ a ∈ cs, (if a == '％' then '%' else a) = id a := by
    intro a ha
    have : ¬(a == '％') = true := by
      intro hb
      rw [beq_iff_eq] at hb
      exact h (hb ▸ ha)
    simp [this]
  rw [List.map_congr_left h2, List.map_id]

/-- C8: percentage parsing accepts both `%` and full-width `％`, falls back
to a bare number when no `%` marker is present, and yields `none` (never an
error) when no number is found: `"+12.3%"` parses to 12.3, `"－5％"` to 5,
bare `"8"` to 8, and `""` to `none`. -/
theorem toFloatPct_spec :
    toFloatPct (some "+12.3%") = some (123 / 10 : Rat) ∧
    toFloatPct (some "－5％") = some 5 ∧
    toFloatPct (some "8") = some 8 ∧
    toFloatPct (some "") = none ∧
    (∀ s : String, '%' ∉ s.data → '％' ∉ s.data →
      toFloatPct (some s) =
        match findIn matchNumAt s.data with
        | some (sign, ip, fp, _) => some (numVal sign ip fp)
        | none => none) ∧
    (∀ s : String, (∀ c ∈ s.data, c.isDigit = false) → toFloatPct (some s) = none) := by
  have e1 : digitsToNat ['1', '2'] = 12 := rfl
  have e2 : digitsToNat ['3'] = 3 := rfl
  have e3 : digitsToNat ['5'] = 5 := rfl
  have e4 : digitsToNat ['8'] = 8 := rfl
  have e0 : digitsToNat [] = 0 := rfl
  refine ⟨?_, ?_, ?_, rfl, ?_, ?_⟩
  · have h : toFloatPct (some "+12.3%") = some (numVal false ['1', '2'] ['3']) := rfl
    rw [h]
    have hv : numVal false ['1', '2'] ['3'] = 123 / 10 := by
      simp only [numVal, e1, e2, List.length_singleton, Bool.false_eq_true, if_false]
      norm_num
    rw [hv]
  · have h : toFloatPct (some "－5％") = some (numVal false ['5'] []) := rfl
    rw [h]
    have hv : numVal false ['5'] [] = 5 := by
      simp only [numVal, e3, e0, List.length_nil, Bool.false_eq_true, if_false]
      norm_num
    rw [hv]
  · have h : toFloatPct (some "8") = some (numVal false ['8'] []) := rfl
    rw [h]
    have hv : numVal false ['8'] [] = 8 := by
      simp only [numVal, e4, e0, List.length_nil, Bool.false_eq_true, if_false]
      norm_num
    rw [hv]
  · intro s h1 h2
    simp only [toFloatPct, map_pct_id h2, findIn_matchPctAt_none h1]
  · intro s h
    have hmap : ∀ c ∈ (s.data.map fun c => if c == '％' then '%' else c), c.isDigit = false := by
      intro c hc
      rw [List.mem_map] at hc
      obtain ⟨a, ha, rfl⟩ := hc
      by_cases hb : (a == '％') = true
      · simp [hb]
      · simp only [Bool.not_eq_true] at hb
        rw [if_neg (by simp [hb])]
        exact h a ha
    simp only [toFloatPct, findIn_matchPctAt_none_of_no_digits hmap,
      findIn_matchNumAt_none hmap]

/-! ## C1, C2 — the pagination crawler -/

theorem crawlGo_agree (t : Rat) (pages₁ pages₂ : Nat → List EquityRow) :
    ∀ (fuel start last : Nat), (∀ q, start ≤ q → q < start + fuel → pages₁ q = pages₂ q) →
      crawlGo t pages₁ start fuel last = crawlGo t pages₂ start fuel last := by
  intro fuel
  induction fuel with
  | zero => intro start last h; rfl
  | succ f ih =>
    intro start last h
    have h0 : pages₁ start = pages₂ start := h start le_rfl (by omega)
    simp only [crawlGo]
    rw [h0, ih (start + 1) start (fun q hq1 hq2 => h q (by omega) (by omega))]

theorem crawlGo_run (t : Rat) (pages : Nat → List EquityRow) :
    ∀ (k start fuel last : Nat), k + 1 ≤ fuel →
      (∀ i, i < k → pages (start + i) ≠ [] ∧ ∃ m, maxPct (pages (start + i)) = some m ∧ t ≤ m) →
      pages (start + k) ≠ [] →
      (maxPct (pages (start + k)) = none ∨ ∃ m, maxPct (pages (start + k)) = some m ∧ m < t) →
      crawlGo t pages start fuel last = ((List.range' start (k + 1)).map pages, start + k) := by
  intro k
  induction k with
  | zero =>
    intro start fuel last hfuel hbefore hn hstop
    obtain ⟨f, rfl⟩ : ∃ f, fuel = f + 1 := ⟨fuel - 1, by omega⟩
    simp only [Nat.add_zero] at hn hstop
    simp only [crawlGo, if_neg hn]
    rcases hstop with hnone | ⟨m, hm, hlt⟩
    · rw [hnone]
      simp [List.range']
    · rw [hm]
      simp [hlt, List.range']
  | succ k ih =>
    intro start fuel last hfuel hbefore hn hstop
    obtain ⟨f, rfl⟩ : ∃ f, fuel = f + 1 := ⟨fuel - 1, by omega⟩
    obtain ⟨hne0, m0, hm0, hge0⟩ := hbefore 0 (by omega)
    simp only [Nat.add_zero] at hne0 hm0 hge0
    have hb' : ∀ i, i < k → pages (start + 1 + i) ≠ [] ∧
        ∃ m, maxPct (pages (start + 1 + i)) = some m ∧ t ≤ m := by
      intro i hi
      have := hbefore (i + 1) (by omega)
      rwa [show start + (i + 1) = start + 1 + i by omega] at this
    have hn' : pages (start + 1 + k) ≠ [] := by
      rwa [show start + (k + 1) = start + 1 + k by omega] at hn
    have hstop' : maxPct (pages (start + 1 + k)) = none ∨
        ∃ m, maxPct (pages (start + 1 + k)) = some m ∧ m < t := by
      rwa [show start + (k + 1) = start + 1 + k by omega] at hstop
    simp only [crawlGo, if_neg hne0]
    rw [hm0]
    simp only [if_neg (not_lt.mpr hge0)]
    rw [ih (start + 1) f start (by omega) hb' hn' hstop']
    simp only [Prod.mk.injEq]
    refine ⟨?_, by omega⟩
    conv_rhs => rw [List.range'_succ]
    rw [List.map_cons]

theorem crawlGo_run_empty (t : Rat) (pages : Nat → List EquityRow) :
    ∀ (k start fuel last : Nat), k + 1 ≤ fuel →
      (∀ i, i < k → pages (start + i) ≠ [] ∧ ∃ m, maxPct (pages (start + i)) = some m ∧ t ≤ m) →
      pages (start + k) = [] →
      crawlGo t pages start fuel last = ((List.range' start k).map pages, start + k) := by
  intro k
  induction k with
  | zero =>
    intro start fuel last hfuel hbefore hn
    obtain ⟨f, rfl⟩ : ∃ f, fuel = f + 1 := ⟨fuel - 1, by omega⟩
    simp only [Nat.add_zero] at hn
    simp [crawlGo, hn, List.range']
  | succ k ih =>
    intro start fuel last hfuel hbefore hn
    obtain ⟨f, rfl⟩ : ∃ f, fuel = f + 1 := ⟨fuel - 1, by omega⟩
    obtain ⟨hne0, m0, hm0, hge0⟩ := hbefore 0 (by omega)
    simp only [Nat.add_zero] at hne0 hm0 hge0
    have hb' : ∀ i, i < k → pages (start + 1 + i) ≠ [] ∧
        ∃ m, maxPct (pages (start + 1 + i)) = some m ∧ t ≤ m := by
      intro i hi
      have := hbefore (i + 1) (by omega)
      rwa [show start + (i + 1) = start + 1 + i by omega] at this
    have hn' : pages (start + 1 + k) = [] := by
      rwa [show start + (k + 1) = start + 1 + k by omega] at hn
    simp only [crawlGo, if_neg hne0]
    rw [hm0]
    simp only [if_neg (not_lt.mpr hge0)]
    rw [ih (start + 1) f start (by omega) hb' hn']
    simp only [Prod.mk.injEq]
    refine ⟨?_, by omega⟩
    conv_rhs => rw [List.range'_succ]
    rw [List.map_cons]

/-- C1: for every sequence of fetched pages and threshold, the crawl visits
pages 1..maxPages in order, appends each nonempty page's rows, and stops
right after the first page whose maximum parsed percentage is undefined or
strictly below the threshold (a page whose maximum equals the threshold
does not stop it); pages beyond the stopping page are never fetched, so
any page function agreeing up to page `n` crawls to the same result. -/
theorem crawl_stops_below_threshold
    (t : Rat) (maxPages n : Nat) (pages : Nat → List EquityRow)
    (h1 : 1 ≤ n) (h2 : n ≤ maxPages)
    (hbefore : ∀ q, 1 ≤ q → q < n → pages q ≠ [] ∧ ∃ m, maxPct (pages q) = some m ∧ t ≤ m)
    (hn : pages n ≠ [])
    (hstop : maxPct (pages n) = none ∨ ∃ m, maxPct (pages n) = some m ∧ m < t) :
    ∀ pages' : Nat → List EquityRow, (∀ q, q ≤ n → pages' q = pages q) →
      crawl t maxPages pages' = (((List.range' 1 n).map pages).flatten, n) := by
  intro pages' hagree
  have hb' : ∀ i, i < n - 1 → pages' (1 + i) ≠ [] ∧
      ∃ m, maxPct (pages' (1 + i)) = some m ∧ t ≤ m := by
    intro i hi
    rw [hagree (1 + i) (by omega)]
    exact hbefore (1 + i) (by omega) (by omega)
  have hn' : pages' (1 + (n - 1)) ≠ [] := by
    rw [show 1 + (n - 1) = n by omega, hagree n le_rfl]
    exact hn
  have hstop' : maxPct (pages' (1 + (n - 1))) = none ∨
      ∃ m, maxPct (pages' (1 + (n - 1))) = some m ∧ m < t := by
    rw [show 1 + (n - 1) = n by omega, hagree n le_rfl]
    exact hstop
  have hrun := crawlGo_run t pages' (n - 1) 1 maxPages 0 (by omega) hb' hn' hstop'
  rw [show n - 1 + 1 = n by omega, show 1 + (n - 1) = n by omega] at hrun
  simp only [crawl]
  rw [hrun]
  have hmapeq : (List.range' 1 n).map pages' = (List.range' 1 n).map pages := by
    refine List.map_congr_left fun q hq => ?_
    rw [List.mem_range'_1] at hq
    exact hagree q (by omega)
  rw [hmapeq]

/-- C2: a page parsing to zero rows stops the crawl immediately, appending
nothing for that page while still recording it as the last page visited;
and the crawl's result only depends on pages 1..maxPages, so the page
ceiling is always enforced. -/
theorem crawl_empty_page_and_ceiling
    (t : Rat) (maxPages n : Nat) (pages : Nat → List EquityRow)
    (h1 : 1 ≤ n) (h2 : n ≤ maxPages)
    (hbefore : ∀ q, 1 ≤ q → q < n → pages q ≠ [] ∧ ∃ m, maxPct (pages q) = some m ∧ t ≤ m)
    (hn : pages n = []) :
    crawl t maxPages pages = (((List.range' 1 (n - 1)).map pages).flatten, n) ∧
    ∀ pages₁ pages₂ : Nat → List EquityRow,
      (∀ q, 1 ≤ q → q ≤ maxPages → pages₁ q = pages₂ q) →
      crawl t maxPages pages₁ = crawl t maxPages pages₂ := by
  constructor
  · have hb' : ∀ i, i < n - 1 → pages (1 + i) ≠ [] ∧
        ∃ m, maxPct (pages (1 + i)) = some m ∧ t ≤ m := by
      intro i hi
      exact hbefore (1 + i) (by omega) (by omega)
    have hn' : pages (1 + (n - 1)) = [] := by
      rwa [show 1 + (n - 1) = n by omega]
    have hrun := crawlGo_run_empty t pages (n - 1) 1 maxPages 0 (by omega) hb' hn'
    rw [show 1 + (n - 1) = n by omega] at hrun
    simp only [crawl]
    rw [hrun]
  · intro pages₁ pages₂ hagree
    simp only [crawl]
    rw [crawlGo_agree t pages₁ pages₂ maxPages 1 0 (fun q hq1 hq2 => hagree q hq1 (by omega))]

/-- C1 witness: pages with maxima [20, 15, 9, 3] and threshold 10; exactly
the first 3 pages' rows are returned, the crawl stops at page 3, and the
content of page 4 (here `pagesB`'s bigger rows) is never consulted. -/
theorem crawl_stops_below_threshold_witness :
    crawl 10 30 pagesB = ([rowP 20, rowP 15, rowP 9], 3) := by
  have hbefore : ∀ q, 1 ≤ q → q < 3 → pagesA q ≠ [] ∧
      ∃ m, maxPct (pagesA q) = some m ∧ (10 : Rat) ≤ m := by
    intro q hq1 hq2
    interval_cases q
    · exact ⟨by decide, 20, by decide, by decide⟩
    · exact ⟨by decide, 15, by decide, by decide⟩
  have h := crawl_stops_below_threshold 10 30 3 pagesA (by norm_num) (by norm_num)
    hbefore (by decide) (Or.inr ⟨9, by decide, by decide⟩) pagesB
    (fun q hq => by interval_cases q <;> rfl)
  exact h.trans (by decide)

/-- C2 witness: page 1 has rows, page 2 parses to zero rows; the crawl
returns only page 1's rows and reports page 2 as the last page visited. -/
theorem crawl_empty_page_witness :
    crawl 10 30 pagesC = ([rowP 20], 2) := by
  have hbefore : ∀ q, 1 ≤ q → q < 2 → pagesC q ≠ [] ∧
      ∃ m, maxPct (pagesC q) = some m ∧ (10 : Rat) ≤ m := by
    intro q hq1 hq2
    interval_cases q
    exact ⟨by decide, 20, by decide, by decide⟩
  have h := crawl_empty_page_and_ceiling 10 30 2 pagesC (by norm_num) (by norm_num)
    hbefore (by decide)
  exact h.1.trans (by decide)

/-! ## C9 — input validation precedes the crawl -/

/-- C9: if the percentage threshold or the volume floor is unparsable, or
the page ceiling is unparsable or not positive, the run fails with a fixed
error message that does not depend on the page contents — a precondition
failure before any page is fetched, never mid-crawl. -/
theorem runQuery_validates_first (pctMin volMin maxPagesStr : String)
    (hbad : toFloatPct (some pctMin) = none ∨ toInt (some volMin) = none ∨
      toInt (some maxPagesStr) = none ∨ toInt (some maxPagesStr) = some 0) :
    ∃ msg, ∀ pages : Nat → List EquityRow,
      runQuery pctMin volMin maxPagesStr pages = .error msg := by
  cases hpct : toFloatPct (some pctMin) with
  | none =>
    exact ⟨"上昇率(%)の下限が解釈できません: " ++ pctMin, fun pages => by
      simp [runQuery, hpct]⟩
  | some p =>
    cases hvol : toInt (some volMin) with
    | none =>
      exact ⟨"出来高の下限が解釈できません: " ++ volMin, fun pages => by
        simp [runQuery, hpct, hvol]⟩
    | some v =>
      cases hmp : toInt (some maxPagesStr) with
      | none =>
        exact ⟨"最大ページ数が解釈できません: " ++ maxPagesStr, fun pages => by
          simp [runQuery, hpct, hvol, hmp]⟩
      | some mp =>
        have hmp0 : mp = 0 := by
          rcases hbad with h | h | h | h
          · rw [hpct] at h; exact absurd h (by simp)
          · rw [hvol] at h; exact absurd h (by simp)
          · rw [hmp] at h; exact absurd h (by simp)
          · rw [hmp] at h; exact Option.some.inj h
        subst hmp0
        exact ⟨"最大ページ数が解釈できません: " ++ maxPagesStr, fun pages => by
          simp [runQuery, hpct, hvol, hmp]⟩

/-- C9 witness: an unparsable percentage threshold fails before any page is
fetched. -/
theorem runQuery_validates_first_witness :
    ∃ msg, ∀ pages : Nat → List EquityRow,
      runQuery "abc" "1000" "30" pages = .error msg :=
  runQuery_validates_first "abc" "1000" "30" (Or.inl (by decide))

/-! ## C3 — disclosure loader: drop and dedup invariants -/

theorem mem_dropDuplicatesBy {r : DiscRow2} :
    ∀ {l seen}, r ∈ dropDuplicatesBy seen l → r ∈ l := by
  intro l
  induction l with
  | nil => intro seen h; simp only [dropDuplicatesBy] at h; exact absurd h (List.not_mem_nil r)
  | cons a rest ih =>
    intro seen h
    rw [dropDuplicatesBy] at h
    by_cases hs : dedupKey a ∈ seen
    · rw [if_pos hs] at h
      exact List.mem_cons_of_mem _ (ih h)
    · rw [if_neg hs] at h
      rcases List.mem_cons.mp h with h1 | h1
      · exact h1 ▸ List.mem_cons_self _ _
      · exact List.mem_cons_of_mem _ (ih h1)

theorem dropDuplicatesBy_nodup :
    ∀ (l : List DiscRow2) (seen : List (String × String)),
    ((dropDuplicatesBy seen l).map dedupKey).Nodup ∧
    ∀ k ∈ (dropDuplicatesBy seen l).map dedupKey, k ∉ seen := by
  intro l
  induction l with
  | nil => intro seen; exact ⟨List.nodup_nil, by simp [dropDuplicatesBy]⟩
  | cons a rest ih =>
    intro seen
    rw [dropDuplicatesBy]
    by_cases hs : dedupKey a ∈ seen
    · rw [if_pos hs]; exact ih seen
    · rw [if_neg hs]
      obtain ⟨hnodup, hnotin⟩ := ih (dedupKey a :: seen)
      rw [List.map_cons]
      constructor
      · rw [List.nodup_cons]
        exact ⟨fun hmem => (hnotin _ hmem) (List.mem_cons_self _ _), hnodup⟩
      · intro k hk
        rcases List.mem_cons.mp hk with h1 | h1
        · exact h1 ▸ hs
        · exact fun hk2 => hnotin k h1 (List.mem_cons_of_mem _ hk2)

theorem dropDuplicatesBy_filter :
    ∀ (l : List DiscRow2) (seen : List (String × String)) (k : String × String),
    (k ∈ seen → (dropDuplicatesBy seen l).filter (fun r => dedupKey r == k) = []) ∧
    (k ∉ seen → (dropDuplicatesBy seen l).filter (fun r => dedupKey r == k) =
      (l.filter (fun r => dedupKey r == k)).take 1) := by
  intro l
  induction l with
  | nil => intro seen k; exact ⟨fun _ => rfl, fun _ => rfl⟩
  | cons a rest ih =>
    intro seen k
    rw [dropDuplicatesBy]
    by_cases hs : dedupKey a ∈ seen
    · rw [if_pos hs]
      refine ⟨fun hk => (ih seen k).1 hk, fun hk => ?_⟩
      have hne : (dedupKey a == k) = false := by
        rw [beq_eq_false_iff_ne]
        intro he
        exact hk (he ▸ hs)
      rw [List.filter_cons, hne]
      simp only [Bool.false_eq_true, if_false]
      exact (ih seen k).2 hk
    · rw [if_neg hs]
      constructor
      · intro hk
        have hne : (dedupKey a == k) = false := by
          rw [beq_eq_false_iff_ne]
          intro he
          exact hs (he ▸ hk)
        rw [List.filter_cons, hne]
        simp only [Bool.false_eq_true, if_false]
        exact (ih (dedupKey a :: seen) k).1 (List.mem_cons_of_mem _ hk)
      · intro hk
        by_cases hak : dedupKey a = k
        · have hb : (dedupKey a == k) = true := beq_iff_eq.mpr hak
          rw [List.filter_cons, List.filter_cons, hb]
          simp only [if_true]
          rw [(ih (dedupKey a :: seen) k).1 (hak ▸ List.mem_cons_self _ _)]
          simp
        · have hb : (dedupKey a == k) = false := beq_eq_false_iff_ne.mpr hak
          rw [List.filter_cons, List.filter_cons, hb]
          simp only [Bool.false_eq_true, if_false]
          refine (ih (dedupKey a :: seen) k).2 ?_
          intro hmem
          rcases List.mem_cons.mp hmem with h1 | h1
          · exact hak h1.symm
          · exact hk h1

theorem dropDuplicatesBy_replicate_seen {X : DiscRow2} :
    ∀ (n : Nat) (seen : List (String × String)), dedupKey X ∈ seen →
      dropDuplicatesBy seen (List.replicate n X) = [] := by
  intro n
  induction n with
  | zero => intro seen h; rfl
  | succ m ih =>
    intro seen h
    rw [List.replicate_succ, dropDuplicatesBy, if_pos h]
    exact ih seen h

/-- C3: the loader's output has no row with an empty code or empty document
URL, no two output rows share a `(code, documentUrl)` key, for every key the
first pre-dedup occurrence is the one kept, and a payload of N+1 exact
duplicates of one item loads exactly like the single item. -/
theorem loadDisclosures_spec :
    (∀ items : List RawItem, ∀ r ∈ loadDisclosures items, r.code ≠ "" ∧ r.document_url ≠ "") ∧
    (∀ items : List RawItem, ((loadDisclosures items).map dedupKey).Nodup) ∧
    (∀ items : List RawItem, ∀ k : String × String,
      (loadDisclosures items).filter (fun r => dedupKey r == k) =
        ((cleanPre (fetchRows items)).filter (fun r => dedupKey r == k)).take 1) ∧
    (∀ it : RawItem, ∀ n : Nat,
      loadDisclosures (List.replicate (n + 1) it) = loadDisclosures [it]) := by
  refine ⟨?_, ?_, ?_, ?_⟩
  · intro items r hr
    unfold loadDisclosures cleanRows at hr
    by_cases hfe : fetchRows items = []
    · rw [if_pos hfe] at hr
      exact absurd hr (List.not_mem_nil r)
    · rw [if_neg hfe] at hr
      have hr2 : r ∈ cleanPre (fetchRows items) := mem_dropDuplicatesBy hr
      unfold cleanPre at hr2
      rw [List.mem_map] at hr2
      obtain ⟨r', hr', rfl⟩ := hr2
      have hk := List.of_mem_filter hr'
      simp only [keepRow, Bool.and_eq_true, bne_iff_ne, ne_eq] at hk
      exact ⟨hk.1, hk.2⟩
  · intro items
    unfold loadDisclosures cleanRows
    by_cases hfe : fetchRows items = []
    · rw [if_pos hfe]; exact List.nodup_nil
    · rw [if_neg hfe]
      exact (dropDuplicatesBy_nodup (cleanPre (fetchRows items)) []).1
  · intro items k
    unfold loadDisclosures cleanRows
    by_cases hfe : fetchRows items = []
    · rw [if_pos hfe, hfe]
      rfl
    · rw [if_neg hfe]
      exact (dropDuplicatesBy_filter (cleanPre (fetchRows items)) [] k).2
        (List.not_mem_nil k)
  · intro it n
    unfold loadDisclosures
    have hfr : fetchRows (List.replicate (n + 1) it) = List.replicate (n + 1) (fetchRow it) := by
      unfold fetchRows
      exact List.map_replicate ..
    have hfr1 : fetchRows [it] = [fetchRow it] := rfl
    rw [hfr, hfr1]
    unfold cleanRows
    rw [if_neg (by simp), if_neg (by simp)]
    have hpre : ∀ m : Nat, cleanPre (List.replicate m (fetchRow it)) =
        if keepRow (clean1 (fetchRow it)) then List.replicate m (addDate (clean1 (fetchRow it)))
        else [] := by
      intro m
      unfold cleanPre
      rw [List.map_replicate, List.filter_replicate]
      by_cases hkeep : keepRow (clean1 (fetchRow it)) = true
      · rw [if_pos hkeep, if_pos hkeep, List.map_replicate]
      · rw [if_neg hkeep, if_neg hkeep]
        rfl
    rw [hpre (n + 1),
      show ([fetchRow it] : List DiscRow) = List.replicate 1 (fetchRow it) from rfl, hpre 1]
    by_cases hkeep : keepRow (clean1 (fetchRow it)) = true
    · rw [if_pos hkeep, if_pos hkeep]
      rw [List.replicate_succ, dropDuplicatesBy]
      rw [if_neg (List.not_mem_nil _)]
      rw [dropDuplicatesBy_replicate_seen n _ (List.mem_cons_self _ _)]
      rfl
    · rw [if_neg hkeep, if_neg hkeep]

/-! ## C4 — recency tagging -/

theorem dateLe_refl (a : PyDate) : dateLe a a = true := by simp [dateLe]

theorem dateLe_trans {a b c : PyDate} (h1 : dateLe a b = true) (h2 : dateLe b c = true) :
    dateLe a c = true := by
  simp only [dateLe, decide_eq_true_eq] at h1 h2 ⊢
  omega

theorem dateLe_total (a b : PyDate) : (dateLe a b || dateLe b a) = true := by
  simp only [dateLe, Bool.or_eq_true, decide_eq_true_eq]
  omega

theorem dateLe_antisymm {a b : PyDate} (h1 : dateLe a b = true) (h2 : dateLe b a = true) :
    a = b := by
  simp only [dateLe, decide_eq_true_eq] at h1 h2
  obtain ⟨ya, ma, da⟩ := a
  obtain ⟨yb, mb, db⟩ := b
  simp only at h1 h2
  simp only [PyDate.mk.injEq]
  omega

theorem mem_uniqueDatesDesc {td : List DiscRow2} {d : PyDate} :
    d ∈ uniqueDatesDesc td ↔ d ∈ td.filterMap fun r => r.pub_date_only := by
  unfold uniqueDatesDesc
  rw [List.mem_mergeSort, List.mem_dedup]

theorem uniqueDatesDesc_nodup (td : List DiscRow2) : (uniqueDatesDesc td).Nodup := by
  unfold uniqueDatesDesc
  exact (List.mergeSort_perm _ _).nodup_iff.mpr (List.nodup_dedup _)

theorem uniqueDatesDesc_sorted (td : List DiscRow2) :
    (uniqueDatesDesc td).Pairwise fun a b => dateLe b a = true := by
  unfold uniqueDatesDesc
  exact @List.sorted_mergeSort PyDate (fun a b => dateLe b a)
    (fun a b c h1 h2 => dateLe_trans h2 h1) (fun a b => dateLe_total b a) _

theorem dayTag_some (maxD prevD : Option PyDate) (d : PyDate) :
    dayTag maxD prevD (some d) =
      if maxD = some d then "当日" else if prevD = some d then "前日" else "" := rfl

theorem dayTag_none (maxD prevD : Option PyDate) : dayTag maxD prevD none = "" := rfl

theorem maxDateOf_eq_some {td : List DiscRow2} {d : PyDate} :
    maxDateOf td = some d ↔
      d ∈ (td.filterMap fun r => r.pub_date_only) ∧
      ∀ x ∈ td.filterMap fun r => r.pub_date_only, dateLe x d = true := by
  unfold maxDateOf
  rcases hu : uniqueDatesDesc td with _ | ⟨a, rest⟩
  · simp only [List.getElem?_nil]
    constructor
    · intro h; exact absurd h (by simp)
    · rintro ⟨hmem, -⟩
      rw [← mem_uniqueDatesDesc, hu] at hmem
      exact absurd hmem (List.not_mem_nil d)
  · have hmax : ∀ x ∈ td.filterMap fun r => r.pub_date_only, dateLe x a = true := by
      intro x hx
      rw [← mem_uniqueDatesDesc, hu] at hx
      rcases List.mem_cons.mp hx with rfl | hx2
      · exact dateLe_refl x
      · have hp := uniqueDatesDesc_sorted td
        rw [hu] at hp
        exact (List.pairwise_cons.mp hp).1 x hx2
    have hamem : a ∈ td.filterMap fun r => r.pub_date_only := by
      rw [← mem_uniqueDatesDesc, hu]
      exact List.mem_cons_self _ _
    simp only [List.getElem?_cons_zero, Option.some.injEq]
    constructor
    · rintro rfl
      exact ⟨hamem, hmax⟩
    · rintro ⟨hmem, hmaxd⟩
      exact dateLe_antisymm (hmaxd a hamem) (hmax d hmem)

theorem prevDateOf_eq_some {td : List DiscRow2} {d : PyDate} :
    prevDateOf td = some d ↔
      d ∈ (td.filterMap fun r => r.pub_date_only) ∧
      ∃ m, maxDateOf td = some m ∧ d ≠ m ∧
        ∀ x ∈ td.filterMap fun r => r.pub_date_only, x ≠ m → dateLe x d = true := by
  unfold prevDateOf
  rcases hu : uniqueDatesDesc td with _ | ⟨a, rest⟩
  · simp only [List.getElem?_nil]
    constructor
    · intro h; exact absurd h (by simp)
    · rintro ⟨hmem, -⟩
      rw [← mem_uniqueDatesDesc, hu] at hmem
      exact absurd hmem (List.not_mem_nil d)
  · rcases rest with _ | ⟨b, rest2⟩
    · simp only [List.getElem?_cons_succ, List.getElem?_nil]
      constructor
      · intro h; exact absurd h (by simp)
      · rintro ⟨hmem, m, hmax, hne, -⟩
        rw [← mem_uniqueDatesDesc, hu] at hmem
        have hd : d = a := by simpa using hmem
        have hm : a = m := by
          unfold maxDateOf at hmax
          rw [hu] at hmax
          simpa using hmax
        exact absurd (hd.trans hm) hne
    · have hp := uniqueDatesDesc_sorted td
      rw [hu] at hp
      have hnd := uniqueDatesDesc_nodup td
      rw [hu] at hnd
      have hmaxa : maxDateOf td = some a := by
        unfold maxDateOf
        rw [hu]
        rfl
      have hbmem : b ∈ td.filterMap fun r => r.pub_date_only := by
        rw [← mem_uniqueDatesDesc, hu]
        exact List.mem_cons_of_mem _ (List.mem_cons_self _ _)
      have hba : b ≠ a := by
        intro h
        exact (List.nodup_cons.mp hnd).1 (h ▸ List.mem_cons_self _ _)
      have hbmax : ∀ x ∈ td.filterMap fun r => r.pub_date_only, x ≠ a → dateLe x b = true := by
        intro x hx hxa
        rw [← mem_uniqueDatesDesc, hu] at hx
        rcases List.mem_cons.mp hx with rfl | hx2
        · exact absurd rfl hxa
        rcases List.mem_cons.mp hx2 with rfl | hx3
        · exact dateLe_refl x
        · exact ((List.pairwise_cons.mp (List.pairwise_cons.mp hp).2).1) x hx3
      simp only [List.getElem?_cons_succ, List.getElem?_cons_zero, Option.some.injEq]
      constructor
      · rintro rfl
        exact ⟨hbmem, a, hmaxa, hba, hbmax⟩
      · rintro ⟨hdmem, m, hmax, hdm, hdmaxm⟩
        have hm : m = a := by
          rw [hmaxa] at hmax
          exact (Option.some.inj hmax).symm
        subst hm
        exact dateLe_antisymm (hdmaxm b hbmem hba) (hbmax d hdmem hdm)

/-- C4: the recency tagger is a pure function of the loaded batch; a row is
tagged today iff its date is the greatest defined date observed, yesterday
iff it is the greatest among the defined dates other than the maximum,
and none otherwise (in particular whenever its date is undefined); with
observed dates {2024-05-10, 2024-05-09, 2024-05-08} the rows tag
[today, yesterday, none, none]. -/
theorem recency_tagging_spec :
    (∀ (td : List DiscRow2) (d : PyDate),
      dayTag (maxDateOf td) (prevDateOf td) (some d) = "当日" ↔
        d ∈ (td.filterMap fun r => r.pub_date_only) ∧
        ∀ x ∈ td.filterMap fun r => r.pub_date_only, dateLe x d = true) ∧
    (∀ (td : List DiscRow2) (d : PyDate),
      dayTag (maxDateOf td) (prevDateOf td) (some d) = "前日" ↔
        d ∈ (td.filterMap fun r => r.pub_date_only) ∧
        ∃ m, maxDateOf td = some m ∧ d ≠ m ∧
          ∀ x ∈ td.filterMap fun r => r.pub_date_only, x ≠ m → dateLe x d = true) ∧
    (∀ td : List DiscRow2, dayTag (maxDateOf td) (prevDateOf td) none = "") ∧
    (∀ (td : List DiscRow2) (d : Option PyDate),
      dayTag (maxDateOf td) (prevDateOf td) d = "" ↔
        dayTag (maxDateOf td) (prevDateOf td) d ≠ "当日" ∧
        dayTag (maxDateOf td) (prevDateOf td) d ≠ "前日") ∧
    (tagRows tdEx4).map (fun r => r.day_tag) = ["当日", "前日", "", ""] ∧
    (∀ td : List DiscRow2, tagRows td =
      td.map fun r =>
        { code := r.code, source_tag := r.source_tag, title := r.title
          document_url := r.document_url, pubdate := r.pubdate
          pub_date_only := r.pub_date_only
          day_tag := dayTag (maxDateOf td) (prevDateOf td) r.pub_date_only }) := by
  have hkey1 : ∀ (td : List DiscRow2) (d : PyDate),
      dayTag (maxDateOf td) (prevDateOf td) (some d) = "当日" ↔ maxDateOf td = some d := by
    intro td d
    rw [dayTag_some]
    by_cases h1 : maxDateOf td = some d
    · simp [h1]
    · rw [if_neg h1]
      by_cases h2 : prevDateOf td = some d
      · rw [if_pos h2]
        exact iff_of_false (by decide) h1
      · rw [if_neg h2]
        exact iff_of_false (by decide) h1
  have hkey2 : ∀ (td : List DiscRow2) (d : PyDate),
      dayTag (maxDateOf td) (prevDateOf td) (some d) = "前日" ↔ prevDateOf td = some d := by
    intro td d
    rw [dayTag_some]
    by_cases h1 : maxDateOf td = some d
    · rw [if_pos h1]
      constructor
      · intro h; exact absurd h (by decide)
      · intro h2
        rw [prevDateOf_eq_some] at h2
        obtain ⟨-, m, hmax, hdm, -⟩ := h2
        rw [h1] at hmax
        exact absurd (Option.some.inj hmax) hdm
    · rw [if_neg h1]
      by_cases h2 : prevDateOf td = some d
      · simp [h2]
      · rw [if_neg h2]
        exact iff_of_false (by decide) h2
  refine ⟨?_, ?_, fun td => rfl, ?_, ?_, fun td => rfl⟩
  · intro td d
    rw [hkey1, maxDateOf_eq_some]
  · intro td d
    rw [hkey2, prevDateOf_eq_some]
  · intro td d
    cases d with
    | none =>
      rw [dayTag_none]
      exact ⟨fun h => ⟨by decide, by decide⟩, fun h => rfl⟩
    | some d =>
      rw [dayTag_some]
      by_cases h1 : maxDateOf td = some d
      · rw [if_pos h1]
        constructor
        · intro h; exact absurd h (by decide)
        · rintro ⟨h, -⟩; exact absurd rfl h
      · rw [if_neg h1]
        by_cases h2 : prevDateOf td = some d
        · rw [if_pos h2]
          constructor
          · intro h; exact absurd h (by decide)
          · rintro ⟨-, h⟩; exact absurd rfl h
        · rw [if_neg h2]
          exact ⟨fun h => ⟨by decide, by decide⟩, fun h => rfl⟩
  · have hu : uniqueDatesDesc tdEx4 = [⟨2024, 5, 10⟩, ⟨2024, 5, 9⟩, ⟨2024, 5, 8⟩] := by
      unfold uniqueDatesDesc
      rw [show (tdEx4.filterMap fun r => r.pub_date_only).dedup =
        [(⟨2024, 5, 10⟩ : PyDate), ⟨2024, 5, 9⟩, ⟨2024, 5, 8⟩] from by decide]
      exact List.mergeSort_of_sorted (by decide)
    have h1 : maxDateOf tdEx4 = some ⟨2024, 5, 10⟩ := by
      unfold maxDateOf
      rw [hu]
      rfl
    have h2 : prevDateOf tdEx4 = some ⟨2024, 5, 9⟩ := by
      unfold prevDateOf
      rw [hu]
      rfl
    simp only [tagRows]
    rw [h1, h2]
    decide

/-! ## C6 — correlation produces one record per equity row -/

theorem byCode_eq_nil {td : List DiscRow3} {c : String}
    (h : td.filter (fun r => groupKey r == c) = []) : byCode td c = [] := by
  unfold byCode
  have hperm := (List.mergeSort_perm td lexLe).filter fun r => groupKey r == c
  rw [h] at hperm
  rw [List.Perm.eq_nil hperm]
  rfl

/-- C6: correlation yields exactly one output record per input equity row,
in the same order, never filtering any row out; an equity whose code
matches no disclosure gets `disclosureCount = 0` and empty
`topDisclosures`, and this is an ordinary value, not an error. -/
theorem correlate_spec :
    (∀ (tagged : List DiscRow3) (dfIn : List EquityRow),
      (attachDisclosures tagged dfIn).length = dfIn.length) ∧
    (∀ (tagged : List DiscRow3) (dfIn : List EquityRow) (i : Nat),
      (attachDisclosures tagged dfIn)[i]? = (dfIn[i]?).map (attachOne tagged)) ∧
    (∀ (tagged : List DiscRow3) (e : EquityRow),
      tagged.filter (fun r => groupKey r == zfill 4 (String.mk (stripChars e.code.data))) = [] →
      (attachOne tagged e).disclosureCount = 0 ∧ (attachOne tagged e).topDisclosures = []) := by
  refine ⟨?_, ?_, ?_⟩
  · intro tagged dfIn
    unfold attachDisclosures
    exact List.length_map ..
  · intro tagged dfIn i
    unfold attachDisclosures
    exact List.getElem?_map ..
  · intro tagged e h
    have hnil : byCode tagged (zfill 4 (String.mk (stripChars e.code.data))) = [] :=
      byCode_eq_nil h
    simp only [attachOne, hnil]
    exact ⟨rfl, rfl⟩

/-! ## C5 — per-code rank ordering, stability, and the top-5 cap -/

theorem lexLe_iff {a b : DiscRow3} :
    lexLe a b = true ↔ a.code < b.code ∨ (a.code = b.code ∧ rank a.day_tag ≤ rank b.day_tag) := by
  unfold lexLe
  simp [Bool.or_eq_true, Bool.and_eq_true, decide_eq_true_eq, beq_iff_eq]

theorem lexLe_trans' : ∀ a b c : DiscRow3,
    lexLe a b = true → lexLe b c = true → lexLe a c = true := by
  intro a b c h1 h2
  rw [lexLe_iff] at h1 h2 ⊢
  rcases h1 with h1 | ⟨h1e, h1r⟩ <;> rcases h2 with h2 | ⟨h2e, h2r⟩
  · exact Or.inl (lt_trans h1 h2)
  · exact Or.inl (h2e ▸ h1)
  · exact Or.inl (h1e ▸ h2)
  · exact Or.inr ⟨h1e.trans h2e, le_trans h1r h2r⟩

theorem lexLe_total' : ∀ a b : DiscRow3, (lexLe a b || lexLe b a) = true := by
  intro a b
  simp only [Bool.or_eq_true, lexLe_iff]
  rcases lt_trichotomy a.code b.code with h | h | h
  · exact Or.inl (Or.inl h)
  · rcases Nat.le_total (rank a.day_tag) (rank b.day_tag) with hr | hr
    · exact Or.inl (Or.inr ⟨h, hr⟩)
    · exact Or.inr (Or.inr ⟨h.symm, hr⟩)
  · exact Or.inr (Or.inl h)

theorem rank_cases (tag : String) : rank tag = 0 ∨ rank tag = 1 ∨ rank tag = 9 := by
  unfold rank
  split_ifs <;> simp

/-- A list sorted by a {0, 1, 9}-valued key is the concatenation of its
key-0, key-1 and key-9 rows, each in list order. -/
theorem sorted_tri_filter {α : Type} (g : α → Nat) :
    ∀ l : List α, (∀ a ∈ l, g a = 0 ∨ g a = 1 ∨ g a = 9) →
      l.Pairwise (fun a b => g a ≤ g b) →
      l = l.filter (fun a => g a == 0) ++ l.filter (fun a => g a == 1) ++
          l.filter (fun a => g a == 9) := by
  intro l
  induction l with
  | nil => intro _ _; rfl
  | cons a t ih =>
    intro hv hs
    obtain ⟨ha, ht⟩ := List.pairwise_cons.mp hs
    have iht := ih (fun x hx => hv x (List.mem_cons_of_mem _ hx)) ht
    rcases hv a (List.mem_cons_self _ _) with h0 | h1 | h9
    · simp only [List.filter_cons, h0, beq_self_eq_true, if_true,
        (by decide : ((0 : Nat) == 1) = false), (by decide : ((0 : Nat) == 9) = false),
        Bool.false_eq_true, if_false, List.cons_append]
      rw [← iht]
    · have hf0 : t.filter (fun x => g x == 0) = [] := by
        rw [List.filter_eq_nil_iff]
        intro x hx
        have h' := ha x hx
        simp only [beq_iff_eq]
        omega
      simp only [List.filter_cons, h1, beq_self_eq_true, if_true,
        (by decide : ((1 : Nat) == 0) = false), (by decide : ((1 : Nat) == 9) = false),
        Bool.false_eq_true, if_false]
      rw [hf0]
      rw [hf0] at iht
      simp only [List.nil_append] at iht ⊢
      rw [List.cons_append, ← iht]
    · have hf0 : t.filter (fun x => g x == 0) = [] := by
        rw [List.filter_eq_nil_iff]
        intro x hx
        have h' := ha x hx
        simp only [beq_iff_eq]
        omega
      have hf1 : t.filter (fun x => g x == 1) = [] := by
        rw [List.filter_eq_nil_iff]
        intro x hx
        have h' := ha x hx
        simp only [beq_iff_eq]
        omega
      simp only [List.filter_cons, h9, beq_self_eq_true, if_true,
        (by decide : ((9 : Nat) == 0) = false), (by decide : ((9 : Nat) == 1) = false),
        Bool.false_eq_true, if_false]
      rw [hf0, hf1]
      rw [hf0, hf1] at iht
      simp only [List.nil_append] at iht ⊢
      rw [← iht]

theorem byCode_length (td : List DiscRow3) (c : String) :
    (byCode td c).length = (td.filter fun r => groupKey r == c).length := by
  unfold byCode
  rw [List.length_map]
  exact ((List.mergeSort_perm td lexLe).filter _).length_eq

/-- C5: for a list of tagged rows with canonical codes, each code's grouped
list is exactly its today rows, then its yesterday rows, then its untagged
rows, each bucket in feed-arrival order (`rank` sorted, stable); and the
grouped list counts every match, uncapped. -/
theorem byCode_rank_spec (td : List DiscRow3) (c : String)
    (hcanon : ∀ r ∈ td, groupKey r = r.code) :
    byCode td c =
      ((td.filter fun r => groupKey r == c && rank r.day_tag == 0).map mkItem ++
       (td.filter fun r => groupKey r == c && rank r.day_tag == 1).map mkItem ++
       (td.filter fun r => groupKey r == c && rank r.day_tag == 9).map mkItem) ∧
    (byCode td c).length = (td.filter fun r => groupKey r == c).length := by
  refine ⟨?_, byCode_length td c⟩
  unfold byCode
  set L := (td.mergeSort lexLe).filter (fun r => groupKey r == c) with hL
  have hmemL : ∀ r ∈ L, r ∈ td ∧ r.code = c := by
    intro r hr
    have h1 : r ∈ td := List.mem_mergeSort.mp (List.mem_filter.mp hr).1
    have h2 := List.of_mem_filter hr
    rw [beq_iff_eq] at h2
    rw [hcanon r h1] at h2
    exact ⟨h1, h2⟩
  have hsortedL : L.Pairwise fun a b => rank a.day_tag ≤ rank b.day_tag := by
    have hs : (td.mergeSort lexLe).Pairwise (fun a b => lexLe a b = true) :=
      List.sorted_mergeSort lexLe_trans' lexLe_total' td
    have hsub : L.Pairwise (fun a b => lexLe a b = true) :=
      hs.sublist (List.filter_sublist _)
    refine List.Pairwise.imp_of_mem ?_ hsub
    intro a b ha hb hab
    rw [lexLe_iff] at hab
    rcases hab with h | ⟨-, h⟩
    · rw [(hmemL a ha).2, (hmemL b hb).2] at h
      exact absurd h (lt_irrefl _)
    · exact h
  have hv : ∀ a ∈ L, rank a.day_tag = 0 ∨ rank a.day_tag = 1 ∨ rank a.day_tag = 9 :=
    fun a _ => rank_cases a.day_tag
  have hsplit := sorted_tri_filter (fun r => rank r.day_tag) L hv hsortedL
  have hbucket : ∀ i : Nat, L.filter (fun r => rank r.day_tag == i) =
      td.filter fun r => groupKey r == c && rank r.day_tag == i := by
    intro i
    rw [hL, List.filter_filter]
    have hcong : ∀ a ∈ td.mergeSort lexLe,
        ((rank a.day_tag == i) && (groupKey a == c)) =
        ((groupKey a == c) && (rank a.day_tag == i)) := fun a _ => Bool.and_comm _ _
    rw [List.filter_congr hcong]
    refine filter_mergeSort_of_ties lexLe_trans' lexLe_total' td _ ?_
    intro a ha b hb hpa hpb
    rw [Bool.and_eq_true, beq_iff_eq, beq_iff_eq] at hpa hpb
    rw [lexLe_iff]
    right
    constructor
    · rw [← hcanon a ha, ← hcanon b hb, hpa.1, hpb.1]
    · rw [hpa.2, hpb.2]
  conv_lhs => rw [hsplit]
  rw [List.map_append, List.map_append]
  rw [hbucket 0, hbucket 1, hbucket 9]

/-- C5 witness: for one code, disclosures arriving tagged
[none, today, yesterday, today] group in the order
[today(1st), today(2nd), yesterday, none] with decorated titles, and the
match count is the full 4. -/
theorem byCode_rank_spec_witness :
    byCode tdEx5 "1234" =
      [("当日", "🟦 Tu2", "u2"), ("当日", "🟦 Tu4", "u4"),
       ("前日", "🟨 Tu3", "u3"), ("", "Tu1", "u1")] ∧
    (byCode tdEx5 "1234").length = (tdEx5.filter fun r => groupKey r == "1234").length := by
  have h := byCode_rank_spec tdEx5 "1234" (by decide)
  exact ⟨h.1.trans (by decide), h.2⟩

/-! ## C10 — zero-padding of codes on both sides of the join -/

theorem isDigit_not_whitespace {c : Char} (h : c.isDigit = true) : c.isWhitespace = false := by
  rw [Bool.eq_false_iff]
  intro hw
  simp only [Char.isWhitespace, Bool.or_eq_true, decide_eq_true_eq] at hw
  rcases hw with ((h1 | h1) | h1) | h1 <;> (subst h1; exact absurd h (by decide))

theorem isDigit_toLower {c : Char} (h : c.isDigit = true) : c.toLower = c := by
  unfold Char.toLower
  rw [if_neg]
  intro hc
  simp only [Char.isDigit, Bool.and_eq_true, decide_eq_true_eq] at h
  have h2 : c.val.toNat ≤ (57 : UInt32).toNat := h.2
  have h57 : ((57 : UInt32)).toNat = 57 := rfl
  have hcn : Char.toNat c = c.val.toNat := rfl
  omega

theorem dropWhile_of_all_digits {l : List Char} (hl : ∀ c ∈ l, c.isDigit = true) :
    l.dropWhile Char.isWhitespace = l := by
  cases l with
  | nil => rfl
  | cons a t =>
    rw [List.dropWhile_cons,
      isDigit_not_whitespace (hl a (List.mem_cons_self _ _))]
    simp

theorem stripChars_of_all_digits {cs : List Char} (h : ∀ c ∈ cs, c.isDigit = true) :
    stripChars cs = cs := by
  unfold stripChars
  rw [dropWhile_of_all_digits h,
    dropWhile_of_all_digits fun c hc => h c (List.mem_reverse.mp hc),
    List.reverse_reverse]

theorem safeText_some (s : String) :
    safeText (some s) =
      if (stripChars s.data).map Char.toLower = ['n', 'a', 'n'] then ""
      else String.mk (stripChars s.data) := rfl

theorem safeText_of_all_digits {s : String} (h : ∀ c ∈ s.data, c.isDigit = true) :
    safeText (some s) = s := by
  rw [safeText_some, stripChars_of_all_digits h, if_neg]
  intro hcon
  cases hs : s.data with
  | nil => rw [hs] at hcon; exact absurd hcon (by decide)
  | cons a t =>
    rw [hs, List.map_cons] at hcon
    have ha := h a (hs ▸ List.mem_cons_self _ _)
    simp only [List.cons.injEq] at hcon
    have hcon1 : a.toLower = 'n' := hcon.1
    rw [isDigit_toLower ha] at hcon1
    subst hcon1
    exact absurd ha (by decide)

theorem normalizeCompanyCode_digits (s0 : Option String) :
    (normalizeCompanyCode s0).length ≤ 4 ∧
    ∀ c ∈ (normalizeCompanyCode s0).data, c.isDigit = true := by
  unfold normalizeCompanyCode
  by_cases hb : ((stripChars (s0.getD "").data).length == 5 &&
      (stripChars (s0.getD "").data).getLast? == some '0' &&
      pyIsdigitChars ((stripChars (s0.getD "").data).take 4)) = true
  · rw [if_pos hb]
    simp only [Bool.and_eq_true, pyIsdigitChars, List.all_eq_true, beq_iff_eq] at hb
    constructor
    · show ((stripChars (s0.getD "").data).take 4).length ≤ 4
      rw [List.length_take]
      exact Nat.min_le_left _ _
    · intro c hc
      exact hb.2.2 c hc
  · rw [if_neg hb]
    by_cases h4 : 4 ≤ ((stripChars (s0.getD "").data).filter Char.isDigit).length
    · rw [if_pos h4]
      constructor
      · show (((stripChars (s0.getD "").data).filter Char.isDigit).take 4).length ≤ 4
        rw [List.length_take]
        exact Nat.min_le_left _ _
      · intro c hc
        exact List.of_mem_filter (List.mem_of_mem_take hc)
    · rw [if_neg h4]
      constructor
      · show ((stripChars (s0.getD "").data).filter Char.isDigit).length ≤ 4
        omega
      · intro c hc
        exact List.of_mem_filter hc

theorem zfill_length {s : String} (h : s.length ≤ 4) : (zfill 4 s).length = 4 := by
  unfold zfill
  have hdl : s.data.length = s.length := rfl
  by_cases hlt : s.length < 4
  · rw [if_pos hlt]
    show (List.replicate (4 - s.length) '0' ++ s.data).length = 4
    rw [List.length_append, List.length_replicate]
    omega
  · rw [if_neg hlt]
    omega

theorem zfill_mem_digit {s : String} (hd : ∀ c ∈ s.data, c.isDigit = true) :
    ∀ c ∈ (zfill 4 s).data, c.isDigit = true := by
  unfold zfill
  by_cases hlt : s.length < 4
  · rw [if_pos hlt]
    intro c hc
    have hc2 : c ∈ List.replicate (4 - s.length) '0' ++ s.data := hc
    rcases List.mem_append.mp hc2 with h1 | h1
    · rw [List.eq_of_mem_replicate h1]
      decide
    · exact hd c h1
  · rw [if_neg hlt]
    exact hd

theorem fetchRow_code (it : RawItem) :
    (fetchRow it).code.length = 4 ∧ ∀ c ∈ (fetchRow it).code.data, c.isDigit = true := by
  have hd := normalizeCompanyCode_digits it.company_code
  constructor
  · simp only [fetchRow]
    rw [safeText_of_all_digits hd.2]
    exact zfill_length hd.1
  · simp only [fetchRow]
    rw [safeText_of_all_digits hd.2]
    exact zfill_mem_digit hd.2

theorem clean1_code_of_digits {r : DiscRow} (h4 : r.code.length = 4)
    (hd : ∀ c ∈ r.code.data, c.isDigit = true) : (clean1 r).code = r.code := by
  simp only [clean1]
  rw [safeText_of_all_digits hd]
  unfold zfill
  rw [if_neg (by omega)]

/-- C10: every disclosure code is zero-padded to exactly 4 characters before
the filter and the join, so an item whose raw company code has no digit gets
code "0000" (and survives the empty-code filter, being dropped only for an
empty URL); the equity side's code is padded the same way, and the join
counts matches by comparing the two padded forms. -/
theorem zfill_codes_spec :
    (∀ it : RawItem, (fetchRow it).code.length = 4) ∧
    (∀ items : List RawItem, ∀ r ∈ loadDisclosures items, r.code.length = 4) ∧
    (∀ it : RawItem, (∀ c ∈ (it.company_code.getD "").data, c.isDigit = false) →
      (fetchRow it).code = "0000") ∧
    (∀ items : List RawItem, ∀ r ∈ fetchRows items,
      (clean1 r).code ≠ "" ∧ keepRow (clean1 r) = ((clean1 r).document_url != "")) ∧
    ((loadDisclosures [⟨some "ＡＢＣ", some "T", some "u-pdf", some ""⟩]).map
      (fun r => (r.code, r.document_url)) = [("0000", "u-pdf")]) ∧
    (∀ e : EquityRow, (stripChars e.code.data).length ≤ 4 →
      ∀ tagged : List DiscRow3, (attachOne tagged e).code.length = 4) ∧
    (∀ (tagged : List DiscRow3) (e : EquityRow),
      (attachOne tagged e).disclosureCount =
        (tagged.filter fun r => groupKey r == (attachOne tagged e).code).length) := by
  have hclean : ∀ it : RawItem, (clean1 (fetchRow it)).code = (fetchRow it).code :=
    fun it => clean1_code_of_digits (fetchRow_code it).1 (fetchRow_code it).2
  refine ⟨fun it => (fetchRow_code it).1, ?_, ?_, ?_, by decide, ?_, ?_⟩
  · intro items r hr
    unfold loadDisclosures cleanRows at hr
    by_cases hfe : fetchRows items = []
    · rw [if_pos hfe] at hr
      exact absurd hr (List.not_mem_nil r)
    · rw [if_neg hfe] at hr
      have hr2 : r ∈ cleanPre (fetchRows items) := mem_dropDuplicatesBy hr
      unfold cleanPre at hr2
      rw [List.mem_map] at hr2
      obtain ⟨r', hr', rfl⟩ := hr2
      have hr3 : r' ∈ (fetchRows items).map clean1 :=
        (List.filter_sublist _).mem hr'
      rw [List.mem_map] at hr3
      obtain ⟨r0, hr0, rfl⟩ := hr3
      unfold fetchRows at hr0
      rw [List.mem_map] at hr0
      obtain ⟨it, hit, rfl⟩ := hr0
      simp only [addDate]
      rw [hclean it]
      exact (fetchRow_code it).1
  · intro it h
    have hnodig : ∀ c ∈ stripChars (it.company_code.getD "").data, c.isDigit = false :=
      fun c hc => h c (mem_of_mem_stripChars hc)
    have hn : normalizeCompanyCode it.company_code = "" := by
      rw [normalizeCompanyCode_eq]
      rw [if_neg]
      · have hfe : (stripChars (it.company_code.getD "").data).filter Char.isDigit = [] := by
          rw [List.filter_eq_nil_iff]
          intro a ha
          simp [hnodig a ha]
        rw [hfe]
        rfl
      · rintro ⟨h5, -, hdig4⟩
        have hne : (stripChars (it.company_code.getD "").data).take 4 ≠ [] := by
          rw [Ne, List.take_eq_nil_iff]
          rintro (h4 | h4)
          · exact absurd h4 (by norm_num)
          · rw [h4] at h5; simp at h5
        obtain ⟨c, hc⟩ := List.exists_mem_of_ne_nil _ hne
        have hcd := hdig4 c hc
        rw [hnodig c (List.mem_of_mem_take hc)] at hcd
        exact absurd hcd (by simp)
    simp only [fetchRow]
    rw [hn]
    rfl
  · intro items r hr
    unfold fetchRows at hr
    rw [List.mem_map] at hr
    obtain ⟨it, hit, rfl⟩ := hr
    have h4 := (fetchRow_code it).1
    have hcodene : (clean1 (fetchRow it)).code ≠ "" := by
      rw [hclean it]
      intro hemp
      rw [hemp] at h4
      exact absurd h4 (by decide)
    refine ⟨hcodene, ?_⟩
    unfold keepRow
    rw [bne_iff_ne.mpr hcodene, Bool.true_and]
  · intro e he tagged
    simp only [attachOne]
    exact zfill_length he
  · intro tagged e
    simp only [attachOne]
    exact byCode_length tagged _

end PtsApp
